import Mathlib

/-!
Verification of the timeline-editing core of ffcutter (src/ffcutter.py).

Timestamps are modelled as rationals (the source uses Python floats for
seconds; every property checked here is about ordering and list structure,
not rounding).  Each definition below is a direct translation of the
corresponding Python function; deviations forced by totality are noted in
comments at the spot.
-/

namespace FFCutter

/-- A segment `(start, end)` as stored in `GUI.segments`. -/
abbrev Seg : Type := ℚ × ℚ

/-- The timeline state owned by the editor: `GUI.segments` and `GUI.anchor`. -/
structure TL where
  segments : List Seg
  anchor : Option ℚ
  deriving DecidableEq, Repr

/-- Ordering of segments by their start, the key `lambda t: t[0]` used by
`put_anchor`'s final `sorted` call. -/
def bystart (p q : Seg) : Prop := p.1 ≤ q.1

instance : DecidableRel bystart := fun p q => inferInstanceAs (Decidable (p.1 ≤ q.1))

instance : IsTotal Seg bystart := ⟨fun p q => le_total p.1 q.1⟩

instance : IsTrans Seg bystart := ⟨fun _ _ _ h h2 => le_trans h h2⟩

/-- The sort performed at the end of `put_anchor`:
`self.segments = list(sorted(self.segments, key=lambda t: t[0]))`.
Python's sort is a stable sort by the start key; insertion sort with
`bystart` is also stable, so it computes the same list. -/
def sortSegs (l : List Seg) : List Seg := l.insertionSort bystart

/-- The membership test of `put_anchor`'s classification loop:
`a <= x <= b` for a segment `(a, b)`. -/
def inside (x : ℚ) (q : Seg) : Bool := decide (q.1 ≤ x ∧ x ≤ q.2)

/-- Index of the last segment satisfying `p`.  `put_anchor`'s loop
`for i, seg in enumerate(self.segments)` overwrites `aai`/`bbi` on every
hit, so the final value is the last matching index (`-1`, modelled as
`none`, when there is no hit). -/
def lastIdx? (p : Seg → Bool) : List Seg → Option ℕ
  | [] => none
  | x :: xs =>
    match lastIdx? p xs with
    | some j => some (j + 1)
    | none => if p x then some 0 else none

/-- The nested helper `remove_between(aa, bb)` of `put_anchor`: keep exactly
the segments that are not fully contained in `[aa, bb]`. -/
def remove_between (aa bb : ℚ) (l : List Seg) : List Seg :=
  l.filter fun q => !(decide (aa ≤ q.1 ∧ q.2 ≤ bb))

/-- `GUI.put_anchor(split_if_inside=True)`, with the ambient
`self.playback_pos` made an explicit `pos` argument.  The second component
models the local variable `move`: `none` means no branch assigned it, in
which case the Python function raises `UnboundLocalError` when the
subsequent log line reads `move` (the state mutation is complete at that
point).  Out-of-range list accesses are modelled with `getD`/`eraseIdx`;
whenever a branch is taken the popped index is in range, and in the
join branch `aai < bbi` holds on every state satisfying the sortedness
invariant, matching Python's `pop(aai)` / `pop(bbi-1)`. -/
def put_anchor (pos : ℚ) (split_if_inside : Bool) (st : TL) : TL × Option ℕ :=
  match st.anchor with
  | none => (⟨sortSegs st.segments, some pos⟩, some 0)
  | some anc =>
    let aa := min anc pos
    let bb := max anc pos
    let aai := lastIdx? (inside aa) st.segments
    let bbi := lastIdx? (inside bb) st.segments
    let res : List Seg × Option ℕ :=
      match aai, bbi with
      | none, none =>
        -- move 1: both sides on clean range
        (remove_between aa bb st.segments ++ [(aa, bb)], some 1)
      | some i, some j =>
        if i = j then
          -- move 2: fully inside another segment -> split that segment
          let q := st.segments.getD i ((0 : ℚ), (0 : ℚ))
          let rest := st.segments.eraseIdx i
          let pieces :=
            if q.1 = aa then [(bb, q.2)]
            else if q.2 = bb then [(q.1, aa)]
            else [(q.1, aa), (bb, q.2)]
          (rest ++ pieces, some 2)
        else if split_if_inside then
          -- move 4: both sides on different segments -> join those segments
          let a := (st.segments.getD i ((0 : ℚ), (0 : ℚ))).1
          let rest1 := st.segments.eraseIdx i
          let b := (rest1.getD (j - 1) ((0 : ℚ), (0 : ℚ))).2
          let rest2 := rest1.eraseIdx (j - 1)
          (remove_between aa bb rest2 ++ [(a, b)], some 4)
        else
          -- no branch runs: segments untouched, and `move` stays unbound
          (st.segments, none)
      | some i, none =>
        -- move 3: only aa inside another segment; aa is widened to its start
        let a := (st.segments.getD i ((0 : ℚ), (0 : ℚ))).1
        let rest := st.segments.eraseIdx i
        (remove_between a bb rest ++ [(a, bb)], some 3)
      | none, some j =>
        -- move 3: only bb inside another segment; bb is widened to its end
        let b := (st.segments.getD j ((0 : ℚ), (0 : ℚ))).2
        let rest := st.segments.eraseIdx j
        (remove_between aa b rest ++ [(aa, b)], some 3)
    (⟨sortSegs res.1, none⟩, res.2)

/-- One element of `del_anchor`'s predicate: the boundary `a == target` or
`b == target` test against `self.closest_anchor` (an optional float). -/
def hitsT (t : Option ℚ) (q : Seg) : Prop := some q.1 = t ∨ some q.2 = t

instance (t : Option ℚ) (q : Seg) : Decidable (hitsT t q) :=
  inferInstanceAs (Decidable (_ ∨ _))

/-- The body of `del_anchor`'s `for a, b in self.segments` loop.  Python
iterates by an internal index over the live list while `list.remove`
deletes the first pair equal to the current one, so after a removal the
next fetched element is the one two places further in the original list;
the explicit index `i` reproduces that. -/
def delIterAux (t : Option ℚ) :
    ℕ → List Seg → ℕ → Option ℚ → List Seg × Option ℚ
  | 0, l, _, anc => (l, anc)
  | fuel + 1, l, i, anc =>
    match l[i]? with
    | none => (l, anc)
    | some q =>
      if some q.1 = t then delIterAux t fuel (l.erase q) (i + 1) (some q.2)
      else if some q.2 = t then delIterAux t fuel (l.erase q) (i + 1) (some q.1)
      else delIterAux t fuel l (i + 1) anc

/-- Entry point of the loop.  The fuel `l.length - i` bounds the number of
remaining iterations (each step either advances `i` past an unchanged
list or advances `i` past a list one element shorter); it runs out at or
after the same point where Python's iterator is exhausted, so the two
agree on every input. -/
def delIter (t : Option ℚ) (l : List Seg) (i : ℕ) (anc : Option ℚ) :
    List Seg × Option ℚ :=
  delIterAux t (l.length - i) l i anc

/-- `GUI.del_anchor`, with the ambient `self.closest_anchor` made an
explicit optional `target`.  When the target equals the pending anchor
(including both being `None`), the anchor is cleared; otherwise the loop
over the segments runs. -/
def del_anchor (target : Option ℚ) (st : TL) : TL :=
  if target = st.anchor then ⟨st.segments, none⟩
  else
    let r := delIter target st.segments 0 st.anchor
    ⟨r.1, r.2⟩

/-- One user action on the editor: a `put_anchor` at some position (with
the caller-chosen join flag) or a `del_anchor` at some target. -/
inductive Op where
  | put (pos : ℚ) (flag : Bool)
  | del (target : Option ℚ)
  deriving DecidableEq, Repr

/-- Apply one operation to the timeline (the state mutation only; the
`move` diagnostic of `put_anchor` is dropped here). -/
def step (st : TL) (op : Op) : TL :=
  match op with
  | .put pos flag => (put_anchor pos flag st).1
  | .del target => del_anchor target st

/-- Run a sequence of editor operations from the initial state: empty
segment list, no anchor. -/
def run (ops : List Op) : TL := ops.foldl step ⟨[], none⟩

/-- `GUI.apply_state` restricted to the timeline fields: replay each saved
segment through `put_anchor(start)` then `put_anchor(end,
split_if_inside=False)`, starting from the fresh (empty) editor state, then
install the saved anchor directly. -/
def apply_state (segs : List Seg) (anc : Option ℚ) : TL :=
  let st := segs.foldl
    (fun st q => (put_anchor q.2 false (put_anchor q.1 true st).1).1)
    (⟨[], none⟩ : TL)
  ⟨st.segments, anc⟩

/-! ### NearestNeighborFinder: `sidesi`, `sides`, `closest` -/

/-- The right-hand scan of `sidesi`: starting at `ri`, walk outward (up)
until an element with `d = ls[ri] - t`, `d != 0 and min_diff <= d` and not
beyond `max_diff` is found; an element beyond `max_diff` is skipped and the
scan continues. -/
def scanRightAux (t : ℚ) (ls : List ℚ) (min_diff : ℚ) (max_diff : Option ℚ) :
    ℕ → ℕ → Option ℕ
  | 0, _ => none
  | fuel + 1, ri =>
    match ls[ri]? with
    | none => none
    | some e =>
      if e - t ≠ 0 ∧ min_diff ≤ e - t then
        match max_diff with
        | some md =>
          if e - t > md then scanRightAux t ls min_diff max_diff fuel (ri + 1)
          else some ri
        | none => some ri
      else scanRightAux t ls min_diff max_diff fuel (ri + 1)

/-- Entry point of the right scan; the fuel `ls.length - ri` counts the
exact number of indices left, so it reaches zero exactly when the Python
loop's `ri == len(ls)` guard fires. -/
def scanRight (t : ℚ) (ls : List ℚ) (min_diff : ℚ) (max_diff : Option ℚ)
    (ri : ℕ) : Option ℕ :=
  scanRightAux t ls min_diff max_diff (ls.length - ri) ri

/-- The left-hand scan of `sidesi`: starting at `li`, walk outward (down to
index 0) with `d = t - ls[li]`, with the same acceptance test as the right
scan.  The Python loop stops at `li == -1`; the callers always start it at
an in-range index, so `getD` never hits its default on those calls. -/
def scanLeft (t : ℚ) (ls : List ℚ) (min_diff : ℚ) (max_diff : Option ℚ) :
    ℕ → Option ℕ
  | 0 =>
    if t - ls.getD 0 0 ≠ 0 ∧ min_diff ≤ t - ls.getD 0 0 then
      match max_diff with
      | some md => if t - ls.getD 0 0 > md then none else some 0
      | none => some 0
    else none
  | li + 1 =>
    if t - ls.getD (li + 1) 0 ≠ 0 ∧ min_diff ≤ t - ls.getD (li + 1) 0 then
      match max_diff with
      | some md =>
        if t - ls.getD (li + 1) 0 > md then scanLeft t ls min_diff max_diff li
        else some (li + 1)
      | none => some (li + 1)
    else scanLeft t ls min_diff max_diff li

/-- The free function `sidesi(target, sorted_elements, min_diff=0,
max_diff=None)`: indices of the nearest admissible neighbours strictly left
and right of `target`.  The outer `for` loop returns at the first element
`e >= target`; its `else` clause handles the case where no element is
`>= target` (empty list gives `(None, None)`, otherwise only a left scan
from the last index runs). -/
def sidesi (target : ℚ) (sorted_elements : List ℚ) (min_diff : ℚ)
    (max_diff : Option ℚ) : Option ℕ × Option ℕ :=
  match sorted_elements.findIdx? (fun e => decide (target ≤ e)) with
  | some i =>
    (if i = 0 then none
     else scanLeft target sorted_elements min_diff max_diff (i - 1),
     scanRight target sorted_elements min_diff max_diff i)
  | none =>
    if sorted_elements = [] then (none, none)
    else
      (scanLeft target sorted_elements min_diff max_diff
        (sorted_elements.length - 1),
       none)

/-- The free function `sides`: looks up the values at the indices found by
`sidesi`, but via Python truthiness (`if ai:` / `if bi:`), so an index of
`0` is treated like `None` and yields no value. -/
def sides (target : ℚ) (elements : List ℚ) (min_diff : ℚ)
    (max_diff : Option ℚ) : Option ℚ × Option ℚ :=
  let r := sidesi target elements min_diff max_diff
  (match r.1 with
   | some (n + 1) => elements[n + 1]?
   | _ => none,
   match r.2 with
   | some (n + 1) => elements[n + 1]?
   | _ => none)

/-- First element of `l` minimising `|target - e|`: Python's
`min(elements, key=lambda e: abs(target-e))`, which keeps the earliest
element on ties. -/
def minByAbs (target : ℚ) : List ℚ → Option ℚ
  | [] => none
  | x :: xs => some (xs.foldl (fun best e => if |target - e| < |target - best| then e else best) x)

/-- The free function `closest(target, elements, max_diff=None)`: the
nearest element, or `None` when the list is empty (the caught `ValueError`)
or the nearest element is at least `max_diff` away. -/
def closest (target : ℚ) (elements : List ℚ) (max_diff : Option ℚ) : Option ℚ :=
  match minByAbs target elements with
  | none => none
  | some el =>
    match max_diff with
    | none => some el
    | some md => if |el - target| < md then some el else none

/-! ### TimestampIndexBuilder -/

/-- One parsed line of `ffprobe -show_packets` output as consumed by
`_load_timestamps_from_packets`: a keyframe flag line (`=K`), or a
`pts_time=`/`dts_time=` line whose value field parsed as a float
(`none` models a value like `N/A` whose `float()` raises `ValueError`). -/
inductive PktRec where
  | key
  | ptsLine (v : Option ℚ)
  | dtsLine (v : Option ℚ)
  deriving DecidableEq, Repr

/-- Python list indexing `l[i]` for a possibly negative `i`: negative
indices count from the end; an out-of-range index gives `none`
(`IndexError`). -/
def pyGet (l : List ℚ) (i : ℤ) : Option ℚ :=
  if i ≥ 0 then l[i.toNat]?
  else if (-i).toNat ≤ l.length then l[l.length - (-i).toNat]?
  else none

/-- The packet-reading loop of `_load_timestamps_from_packets`, collecting
`pts`, `dts`, `ipts` and the packet counter `packetn`.  On a keyframe line
it records `pts[packetn-1]`, falling back to `dts[packetn-1]`, and drops
the sample when both raise `IndexError`; a `pts_time=` line increments
`packetn` whether or not its value parses; parsed values are kept only
when nonnegative. -/
def packetLoop : List PktRec → List ℚ → List ℚ → List ℚ → ℕ →
    List ℚ × List ℚ × List ℚ
  | [], pts, dts, ipts, _ => (pts, dts, ipts)
  | .key :: rest, pts, dts, ipts, packetn =>
    let ipts' :=
      match pyGet pts ((packetn : ℤ) - 1) with
      | some v => ipts ++ [v]
      | none =>
        match pyGet dts ((packetn : ℤ) - 1) with
        | some v => ipts ++ [v]
        | none => ipts
    packetLoop rest pts dts ipts' packetn
  | .ptsLine v :: rest, pts, dts, ipts, packetn =>
    let pts' :=
      match v with
      | some x => if 0 ≤ x then pts ++ [x] else pts
      | none => pts
    packetLoop rest pts' dts ipts (packetn + 1)
  | .dtsLine v :: rest, pts, dts, ipts, packetn =>
    let dts' :=
      match v with
      | some x => if 0 ≤ x then dts ++ [x] else dts
      | none => dts
    packetLoop rest pts dts' ipts packetn

/-- Insert `x` into a strictly ascending list, keeping it strictly
ascending and dropping `x` when already present. -/
def insertSD (x : ℚ) : List ℚ → List ℚ
  | [] => [x]
  | y :: ys =>
    if x < y then x :: y :: ys
    else if x = y then y :: ys
    else y :: insertSD x ys

/-- Python's `sorted(set(l))`: the strictly ascending enumeration of the
distinct elements of `l`. -/
def sortedDedup (l : List ℚ) : List ℚ := l.foldr insertSD []

/-- Replace the first occurrence of `v` in `l` by `t`: Python's
`l[l.index(v)] = t`, where an absent `v` (`ValueError`) leaves the list
unchanged (the surrounding `try`/`except` passes). -/
def replaceFirst (l : List ℚ) (v t : ℚ) : List ℚ :=
  match l with
  | [] => []
  | x :: xs => if x = v then t :: xs else x :: replaceFirst xs v t

/-- The "filter out pts of incomplete packets" loop of
`_load_timestamps_from_packets`, exactly as written: `q` starts as an
empty deque and — since no statement in the loop ever appends to it — stays
empty, so `rm` is always empty and nothing is ever removed or replaced. -/
def cleanupLoop (q pts ipts : List ℚ) : List ℚ → List ℚ × List ℚ × List ℚ
  | [] => (q, pts, ipts)
  | t :: rest =>
    let rm := q.filter fun v => decide (|v - t| ≤ 1 / 500)
    let q2 := rm.foldl (fun acc v => acc.erase v) q
    let pts2 := rm.foldl (fun acc v => acc.erase v) pts
    let ipts2 := rm.foldl (fun acc v => replaceFirst acc v t) ipts
    cleanupLoop q2 pts2 ipts2 rest

/-- The tail of `_load_timestamps_from_packets` after the reading loop:
merge and dedup, then run the incomplete-packet cleanup over
`sorted(set(pts))`. -/
def packet_cleanup (pts ipts : List ℚ) : List ℚ × List ℚ :=
  let r := cleanupLoop [] pts ipts (sortedDedup pts)
  (r.2.1, r.2.2)

/-- `GUI._load_timestamps_from_packets` on a parsed record stream (the
external process and its exit status are outside the model): returns
`(pts, ipts)` when the resulting `pts` is non-empty, `none` otherwise. -/
def load_timestamps_from_packets (recs : List PktRec) :
    Option (List ℚ × List ℚ) :=
  let r := packetLoop recs [] [] [] 0
  let pts := sortedDedup (r.1 ++ r.2.1)
  let ipts := sortedDedup r.2.2
  let c := packet_cleanup pts ipts
  if c.1 ≠ [] then some c else none

/-- One parsed line of `ffprobe -show_frames` output as consumed by
`_load_timestamps_from_frames`: a `best_effort_timestamp_time=` line
(`none` models an unparsable value, whose `float()` failure is swallowed)
or an exact `pict_type=I` line. -/
inductive FrmRec where
  | ts (v : Option ℚ)
  | iframe
  deriving DecidableEq, Repr

/-- The frame-reading loop of `_load_timestamps_from_frames`.  A timestamp
line appends to `pts` in stream order — no sorting, no dedup; a
`pict_type=I` line appends `pts[-1]` to `ipts`, and raises an uncaught
`IndexError` when `pts` is still empty (modelled as `none`). -/
def framesLoop : List FrmRec → List ℚ → List ℚ → Option (List ℚ × List ℚ)
  | [], pts, ipts => some (pts, ipts)
  | .ts v :: rest, pts, ipts =>
    match v with
    | some x => framesLoop rest (pts ++ [x]) ipts
    | none => framesLoop rest pts ipts
  | .iframe :: rest, pts, ipts =>
    match pts.getLast? with
    | some v => framesLoop rest pts (ipts ++ [v])
    | none => none

/-- `GUI._load_timestamps_from_frames` on a parsed record stream: returns
`(pts, ipts)` when `pts` is non-empty, `none` on an empty result or on the
uncaught `IndexError` of an I-frame line before any timestamp line. -/
def load_timestamps_from_frames (recs : List FrmRec) :
    Option (List ℚ × List ℚ) :=
  match framesLoop recs [] [] with
  | none => none
  | some (pts, ipts) => if pts ≠ [] then some (pts, ipts) else none

/-! ### Inverter: `get_inversed_segments` -/

/-- The loop body of `get_inversed_segments`, walking the flattened
boundary list `anchors` with its index, the running `prev`, and the local
accumulator `segments`.  At an even index the gap `(prev, t)` is emitted
unless the `first_frame` test holds; at an odd index `prev` becomes `t`,
and at the final index the trailing gap `(t, playback_len)` is emitted
unless the `last_frame` test holds. -/
def invAux (playback_len : ℚ) (pts : List ℚ) (fps : ℚ) (total : ℕ) :
    List ℚ → ℕ → Option ℚ → List Seg → List Seg
  | [], _, _, acc => acc
  | t :: rest, i, prev, acc =>
    if i % 2 = 0 then
      let prev2 := prev.getD 0
      let first_frame :=
        t = 0 ∨ (pts ≠ [] ∧ closest t pts none = pts[0]?)
      let acc2 := if first_frame then acc else acc ++ [(prev2, t)]
      invAux playback_len pts fps total rest (i + 1) (some prev2) acc2
    else
      let last_frame :=
        playback_len - t < 1 / fps ∨
          (pts ≠ [] ∧ closest t pts none = pts.getLast?)
      let acc2 :=
        if i = total - 1 ∧ ¬last_frame then acc ++ [(t, playback_len)] else acc
      invAux playback_len pts fps total rest (i + 1) (some t) acc2

/-- The complement list that `get_inversed_segments` builds in its local
variable `segments` before falling off the end of the function. -/
def inversed_segments_value (segs : List Seg) (playback_len : ℚ)
    (pts : List ℚ) (fps : ℚ) : List Seg :=
  let anchors := segs.flatMap fun q => [q.1, q.2]
  invAux playback_len pts fps anchors.length anchors 0 none []

/-- `GUI.get_inversed_segments` as written: the function body computes
`inversed_segments_value` into a local variable but contains no `return`
statement, so every call returns Python's `None`. -/
def get_inversed_segments (segs : List Seg) (playback_len : ℚ)
    (pts : List ℚ) (fps : ℚ) : Option (List Seg) :=
  let segments := inversed_segments_value segs playback_len pts fps
  let _ := segments
  none

/-! ### The timeline invariant -/

/-- Segment `p` lies entirely left of segment `q`, possibly abutting it:
the non-overlap relation between a segment and any later one in a sorted
timeline. -/
def relLE (p q : Seg) : Prop := p.2 ≤ q.1

/-- Pre-sort compatibility of two segments in the order they appear in the
not-yet-sorted list: either `p` is left of `q`, or `q` is left of `p` with
a strictly smaller start (so that sorting by start puts `q` first). -/
def acond (p q : Seg) : Prop := p.2 ≤ q.1 ∨ (q.2 ≤ p.1 ∧ q.1 < p.1)

/-- The timeline invariant: segments pairwise non-overlapping in list
order (hence sorted by start) and each segment with start ≤ end. -/
def Inv (l : List Seg) : Prop := l.Pairwise relLE ∧ ∀ p ∈ l, p.1 ≤ p.2

/-! ### Helper lemmas about the scans of `sidesi` -/

theorem scanRightAux_ne_target (t : ℚ) (ls : List ℚ) (mind : ℚ)
    (maxd : Option ℚ) :
    ∀ fuel ri r, scanRightAux t ls mind maxd fuel ri = some r →
      ls[r]? ≠ some t := by
  intro fuel
  induction fuel with
  | zero => intro ri r h; exact Option.noConfusion h
  | succ fuel ih =>
    intro ri r h
    simp only [scanRightAux] at h
    split at h
    · exact Option.noConfusion h
    next e hq =>
      split at h
      next hcond =>
        split at h
        next md =>
          split at h
          · exact ih (ri + 1) r h
          · obtain rfl : ri = r := Option.some.inj h
            rw [hq]
            intro hc
            obtain rfl : e = t := Option.some.inj hc
            exact hcond.1 (by ring)
        next =>
          obtain rfl : ri = r := Option.some.inj h
          rw [hq]
          intro hc
          obtain rfl : e = t := Option.some.inj hc
          exact hcond.1 (by ring)
      next => exact ih (ri + 1) r h

theorem scanRight_ne_target (t : ℚ) (ls : List ℚ) (mind : ℚ) (maxd : Option ℚ)
    (ri r : ℕ) (h : scanRight t ls mind maxd ri = some r) : ls[r]? ≠ some t :=
  scanRightAux_ne_target t ls mind maxd _ ri r h

theorem scanLeft_le_ne_target (t : ℚ) (ls : List ℚ) (mind : ℚ) (maxd : Option ℚ) :
    ∀ li r, scanLeft t ls mind maxd li = some r →
      r ≤ li ∧ ¬ t - ls.getD r 0 = 0 := by
  intro li
  induction li with
  | zero =>
    intro r h
    simp only [scanLeft] at h
    split at h
    next hcond =>
      split at h
      next md =>
        split at h
        · exact Option.noConfusion h
        · obtain rfl : (0 : ℕ) = r := Option.some.inj h
          exact ⟨le_refl _, hcond.1⟩
      next =>
        obtain rfl : (0 : ℕ) = r := Option.some.inj h
        exact ⟨le_refl _, hcond.1⟩
    next => exact Option.noConfusion h
  | succ li ih =>
    intro r h
    simp only [scanLeft] at h
    split at h
    next hcond =>
      split at h
      next md =>
        split at h
        · obtain ⟨h1, h2⟩ := ih r h
          exact ⟨Nat.le_succ_of_le h1, h2⟩
        · obtain rfl : li + 1 = r := Option.some.inj h
          exact ⟨le_refl _, hcond.1⟩
      next =>
        obtain rfl : li + 1 = r := Option.some.inj h
        exact ⟨le_refl _, hcond.1⟩
    next =>
      obtain ⟨h1, h2⟩ := ih r h
      exact ⟨Nat.le_succ_of_le h1, h2⟩

theorem scanLeft_ne_target (t : ℚ) (ls : List ℚ) (mind : ℚ) (maxd : Option ℚ)
    (li r : ℕ) (hli : li < ls.length)
    (h : scanLeft t ls mind maxd li = some r) : ls[r]? ≠ some t := by
  obtain ⟨h1, h2⟩ := scanLeft_le_ne_target t ls mind maxd li r h
  have hr : r < ls.length := lt_of_le_of_lt h1 hli
  rw [List.getElem?_eq_getElem hr]
  intro hc
  obtain hc2 : ls[r] = t := Option.some.inj hc
  apply h2
  rw [List.getD_eq_getElem ls 0 hr, hc2]
  ring

/-- C7: with `min_diff = 0`, `sidesi` never returns an index whose element
equals the target on either side — only strict neighbours qualify; the
empty sequence yields `(none, none)`; and `sidesi 5 [3,4,5,6]` returns the
left index 1 (value 4) and the right index 3 (value 6). -/
theorem sidesi_strict_neighbor (t : ℚ) (ls : List ℚ) :
    (∀ i, (sidesi t ls 0 none).1 = some i → ls[i]? ≠ some t) ∧
    (∀ i, (sidesi t ls 0 none).2 = some i → ls[i]? ≠ some t) ∧
    sidesi t [] 0 none = (none, none) ∧
    sidesi 5 [3, 4, 5, 6] 0 none = (some 1, some 3) := by
  refine ⟨?_, ?_, rfl, ?_⟩
  · intro i h
    unfold sidesi at h
    cases hf : ls.findIdx? (fun e => decide (t ≤ e)) with
    | some idx =>
      rw [hf] at h
      simp only at h
      have hidx : idx < ls.length := by
        obtain ⟨hlt, -⟩ := List.findIdx?_eq_some_iff_getElem.mp hf
        exact hlt
      split at h
      · exact Option.noConfusion h
      next hne =>
        exact scanLeft_ne_target t ls 0 none (idx - 1) i (by omega) h
    | none =>
      rw [hf] at h
      simp only at h
      split at h
      · exact Option.noConfusion h
      next hne =>
        have hlen : 0 < ls.length := List.length_pos.mpr hne
        exact scanLeft_ne_target t ls 0 none (ls.length - 1) i (by omega) h
  · intro i h
    unfold sidesi at h
    cases hf : ls.findIdx? (fun e => decide (t ≤ e)) with
    | some idx =>
      rw [hf] at h
      simp only at h
      exact scanRight_ne_target t ls 0 none idx i h
    | none =>
      rw [hf] at h
      simp only at h
      split at h
      · exact Option.noConfusion h
      · exact Option.noConfusion h
  · show sidesi 5 [3, 4, 5, 6] 0 none = (some 1, some 3)
    unfold sidesi
    norm_num
    constructor
    · norm_num [scanLeft]
    · norm_num [scanRight, scanRightAux]

/-- C7 witness: the theorem applied at target 5 and list `[3,4,5,6]`,
discharging the hypothesis of its first conjunct at index 1. -/
theorem sidesi_strict_neighbor_witness : ([3, 4, 5, 6] : List ℚ)[1]? ≠ some 5 :=
  (sidesi_strict_neighbor 5 [3, 4, 5, 6]).1 1
    ((sidesi_strict_neighbor 5 [3, 4, 5, 6]).2.2.2 ▸ rfl)

/-- C10: the value-returning wrapper `sides` tests the indices returned by
`sidesi` for truthiness (`if ai:`), not against `None`, so a neighbour
found at index 0 is dropped: whenever `sidesi` reports index 0 on a side,
`sides` returns `none` for that side; concretely `sidesi 5 [3,6]` is
`(0, 1)` and `sides 5 [3,6]` is `(None, 6)`. -/
theorem sides_drops_index_zero (t : ℚ) (els : List ℚ) (mind : ℚ)
    (maxd : Option ℚ) :
    ((sidesi t els mind maxd).1 = some 0 → (sides t els mind maxd).1 = none) ∧
    ((sidesi t els mind maxd).2 = some 0 → (sides t els mind maxd).2 = none) ∧
    sidesi 5 [3, 6] 0 none = (some 0, some 1) ∧
    sides 5 [3, 6] 0 none = (none, some 6) := by
  have hs : sidesi 5 ([3, 6] : List ℚ) 0 none = (some 0, some 1) := by
    unfold sidesi
    norm_num
    constructor
    · norm_num [scanLeft]
    · norm_num [scanRight, scanRightAux]
  refine ⟨?_, ?_, hs, ?_⟩
  · intro h
    simp only [sides]
    rw [h]
  · intro h
    simp only [sides]
    rw [h]
  · simp only [sides]
    rw [hs]
    norm_num

/-- C10 witness: the theorem applied at target 5 and list `[3, 6]`,
discharging the hypothesis of its first conjunct. -/
theorem sides_drops_index_zero_witness : (sides 5 [3, 6] 0 none).1 = none :=
  (sides_drops_index_zero 5 [3, 6] 0 none).1
    ((sides_drops_index_zero 5 [3, 6] 0 none).2.2.1 ▸ rfl)

/-! ### The incomplete-packet cleanup never removes anything -/

theorem cleanupLoop_nil_window (pts ipts : List ℚ) :
    ∀ l, cleanupLoop [] pts ipts l = ([], pts, ipts) := by
  intro l
  induction l with
  | nil => rfl
  | cons t rest ih =>
    simp only [cleanupLoop, List.filter_nil, List.foldl_nil]
    exact ih

/-- C2: the claim describes the sliding-window incomplete-packet cleanup,
but the loop in `_load_timestamps_from_packets` never appends anything to
its window deque `q`, so `q` stays empty, no timestamp is ever removed
from the candidate index and no keyframe is ever replaced.  On the claim's
example `[1.000, 1.0015, 2.000]` (with `|1.0015 - 1.000| ≤ 0.002`) the
resulting pts index is the unchanged `[1.000, 1.0015, 2.000]`, not the
claimed `[1.000, 2.000]`. -/
theorem packet_cleanup_removes_nothing :
    packet_cleanup [1, 2003 / 2000, 2] [] = ([1, 2003 / 2000, 2], []) ∧
    |(2003 / 2000 : ℚ) - 1| ≤ 1 / 500 ∧
    ([1, 2003 / 2000, 2] : List ℚ) ≠ [1, 2] ∧
    load_timestamps_from_packets
        [.ptsLine (some 1), .ptsLine (some (2003 / 2000)), .ptsLine (some 2)] =
      some ([1, 2003 / 2000, 2], []) := by
  refine ⟨?_, by norm_num [abs], by simp, ?_⟩
  · unfold packet_cleanup
    rw [cleanupLoop_nil_window]
  · unfold load_timestamps_from_packets
    norm_num [packetLoop, sortedDedup, insertSD, packet_cleanup,
      cleanupLoop_nil_window]
    intro h
    simp at h

/-- C4: `get_inversed_segments` computes the complement of the segment
list over `[0, total_duration]` into a local variable — on the claim's
example it is exactly `[(0,10), (20,50), (60,100)]` — but the function has
no `return` statement, so every call returns `None` and the caller
`adjust_segements` then fails iterating over it. -/
theorem get_inversed_segments_returns_none :
    inversed_segments_value [(10, 20), (50, 60)] 100 [] 1 =
      [(0, 10), (20, 50), (60, 100)] ∧
    get_inversed_segments [(10, 20), (50, 60)] 100 [] 1 = none := by
  constructor
  · norm_num [inversed_segments_value, invAux, closest]
  · rfl

/-- C5: with a pending anchor at 15, `put_anchor(35, split_if_inside=False)`
on segments `[(10,20), (30,40)]` puts the two sorted endpoints inside two
different segments with the join flag disabled: the anchor is cleared and
the segment list is unchanged, but no branch of the `if`/`elif` chain
assigns the local `move`, so the following log line
`self.print('> put, move №%s ...' % move)` raises `UnboundLocalError`
(the `none` in the second component) instead of completing. -/
theorem put_anchor_case4_disabled_raises :
    put_anchor 35 false ⟨[(10, 20), (30, 40)], some 15⟩ =
      (⟨[(10, 20), (30, 40)], none⟩, none) := by
  decide

/-- C9 counterexample: frame mode (`_load_timestamps_from_frames`) appends
timestamps in stream order with no sorting and no deduplication, so the
record stream `[ts 2.0, ts 1.0]` produces the index `([2, 1], [])`, whose
pts sequence is not ascending — the claimed invariant fails for the
frame-mode strategy. -/
theorem frames_index_not_sorted :
    load_timestamps_from_frames [.ts (some 2), .ts (some 1)] =
      some ([2, 1], []) ∧
    ¬ ([2, 1] : List ℚ).Pairwise (· < ·) := by
  constructor
  · rfl
  · decide

/-- C3 counterexample: the timeline `[(0,1), (1,2)]` is well formed
(sorted, non-overlapping, abutting at 1, both segments with start < end),
but replaying it through `apply_state` merges the two abutting segments:
when `put_anchor(1)` starts the second segment, position 1 lies inside the
already-rebuilt `(0,1)` (the inside test is inclusive), so the move-3
branch absorbs it and the replay ends with `[(0,2)]`, not the original
segment set. -/
theorem apply_state_merges_abutting :
    (([(0, 1), (1, 2)] : List Seg).Pairwise fun p q => p.2 ≤ q.1) ∧
    (∀ p ∈ ([(0, 1), (1, 2)] : List Seg), p.1 < p.2) ∧
    (apply_state [(0, 1), (1, 2)] none).segments = [(0, 2)] ∧
    apply_state [(0, 1), (1, 2)] none ≠ ⟨[(0, 1), (1, 2)], none⟩ := by
  refine ⟨by decide, by decide, ?_, ?_⟩ <;> decide

/-- C6 counterexample: from the empty timeline, `put_anchor(5)` followed by
`put_anchor(5)` takes the move-1 branch with both endpoints equal (neither
lies inside a segment) and inserts the zero-length segment `(5, 5)`, so a
reachable segment violates `start < end`. -/
theorem run_creates_zero_length_segment :
    (run [Op.put 5 true, Op.put 5 true]).segments = [(5, 5)] ∧
    ¬ ((5 : ℚ) < 5) := by
  constructor
  · decide
  · decide

/-! ### Packet mode always yields strictly ascending, duplicate-free indices -/

theorem mem_insertSD (x : ℚ) :
    ∀ l z, z ∈ insertSD x l → z = x ∨ z ∈ l := by
  intro l
  induction l with
  | nil =>
    intro z hz
    simp only [insertSD, List.mem_singleton] at hz
    exact Or.inl hz
  | cons y ys ih =>
    intro z hz
    simp only [insertSD] at hz
    split at hz
    · rcases List.mem_cons.mp hz with h | h
      · exact Or.inl h
      · exact Or.inr h
    · split at hz
      · exact Or.inr hz
      · rcases List.mem_cons.mp hz with h | h
        · exact Or.inr (h ▸ List.mem_cons_self y ys)
        · rcases ih z h with h2 | h2
          · exact Or.inl h2
          · exact Or.inr (List.mem_cons_of_mem y h2)

theorem pairwise_insertSD (x : ℚ) :
    ∀ l, l.Pairwise (· < ·) → (insertSD x l).Pairwise (· < ·) := by
  intro l
  induction l with
  | nil => intro _; simp [insertSD]
  | cons y ys ih =>
    intro hp
    obtain ⟨hy, hys⟩ := List.pairwise_cons.mp hp
    simp only [insertSD]
    split
    next hlt =>
      refine List.pairwise_cons.mpr ⟨?_, hp⟩
      intro z hz
      rcases List.mem_cons.mp hz with rfl | h
      · exact hlt
      · exact lt_trans hlt (hy z h)
    next hnlt =>
      split
      next heq => exact hp
      next hne =>
        refine List.pairwise_cons.mpr ⟨?_, ih hys⟩
        intro z hz
        rcases mem_insertSD x ys z hz with rfl | h
        · rcases lt_trichotomy z y with h2 | h2 | h2
          · exact absurd h2 hnlt
          · exact absurd h2 hne
          · exact h2
        · exact hy z h

theorem sortedDedup_pairwise (l : List ℚ) :
    (sortedDedup l).Pairwise (· < ·) := by
  unfold sortedDedup
  induction l with
  | nil => simp
  | cons x xs ih => exact pairwise_insertSD x _ ih

/-- C9 (amended to packet mode): every index produced by
`_load_timestamps_from_packets` has a strictly ascending, duplicate-free
pts sequence and a strictly ascending, duplicate-free keyframes sequence,
for every input record stream — both lists are `sorted(set(...))` results
and the subsequent incomplete-packet cleanup never modifies them. -/
theorem packets_index_sorted (recs : List PktRec) (p k : List ℚ)
    (h : load_timestamps_from_packets recs = some (p, k)) :
    p.Pairwise (· < ·) ∧ k.Pairwise (· < ·) := by
  simp only [load_timestamps_from_packets, packet_cleanup,
    cleanupLoop_nil_window] at h
  split at h
  · obtain ⟨h1, h2⟩ := Prod.mk.injEq .. ▸ Option.some.inj h
    exact ⟨h1 ▸ sortedDedup_pairwise _, h2 ▸ sortedDedup_pairwise _⟩
  · exact Option.noConfusion h

/-- C9 witness: the theorem applied to the one-packet stream, whose index
is `([1], [])`. -/
theorem packets_index_sorted_witness :
    ([1] : List ℚ).Pairwise (· < ·) ∧ ([] : List ℚ).Pairwise (· < ·) :=
  packets_index_sorted [.ptsLine (some 1)] [1] [] (by decide)

/-! ### Computation lemmas for the `del_anchor` loop -/

theorem delIterAux_step_no_match (t : Option ℚ) (fuel : ℕ) (l : List Seg)
    (i : ℕ) (anc : Option ℚ) (hi : i < l.length)
    (hno : ¬ hitsT t (l.get ⟨i, hi⟩)) :
    delIterAux t (fuel + 1) l i anc = delIterAux t fuel l (i + 1) anc := by
  simp only [delIterAux, List.getElem?_eq_getElem hi]
  simp only [List.get_eq_getElem] at hno
  rw [if_neg fun hc => hno (Or.inl hc), if_neg fun hc => hno (Or.inr hc)]

theorem delIterAux_no_match (t : Option ℚ) :
    ∀ (fuel : ℕ) (l : List Seg) (i : ℕ) (anc : Option ℚ),
      (∀ j (hj : j < l.length), i ≤ j → ¬ hitsT t (l.get ⟨j, hj⟩)) →
      delIterAux t fuel l i anc = (l, anc) := by
  intro fuel
  induction fuel with
  | zero => intro l i anc _; rfl
  | succ fuel ih =>
    intro l i anc hno
    by_cases hi : i < l.length
    · rw [delIterAux_step_no_match t fuel l i anc hi (hno i hi (le_refl i))]
      exact ih l (i + 1) anc fun j hj hij => hno j hj (by omega)
    · simp only [delIterAux]
      rw [List.getElem?_eq_none (Nat.le_of_not_lt hi)]

theorem delIterAux_prefix (t : Option ℚ) :
    ∀ (k fuel : ℕ) (l : List Seg) (i : ℕ) (anc : Option ℚ),
      i + k ≤ l.length →
      (∀ j (hj : j < l.length), i ≤ j → j < i + k → ¬ hitsT t (l.get ⟨j, hj⟩)) →
      delIterAux t (k + fuel) l i anc = delIterAux t fuel l (i + k) anc := by
  intro k
  induction k with
  | zero => intro fuel l i anc _ _; rw [Nat.zero_add, Nat.add_zero]
  | succ k ih =>
    intro fuel l i anc hrange hno
    have hi : i < l.length := by omega
    have hstep : k + 1 + fuel = (k + fuel) + 1 := by omega
    rw [hstep, delIterAux_step_no_match t (k + fuel) l i anc hi
      (hno i hi (le_refl i) (by omega))]
    have := ih fuel l (i + 1) anc (by omega)
      (fun j hj h1 h2 => hno j hj (by omega) (by omega))
    rw [this]
    congr 1
    omega

/-- C8: on a timeline whose segment boundaries are pairwise distinct,
`del_anchor` at a target equal to one boundary of an existing segment (and
different from the pending anchor) removes that segment and sets the
pending anchor to the segment's other boundary. -/
theorem del_anchor_removes_boundary (segs : List Seg) (anc : Option ℚ)
    (a b t : ℚ)
    (hnd : (segs.flatMap fun q => [q.1, q.2]).Nodup)
    (hmem : (a, b) ∈ segs) (ht : t = a ∨ t = b) (hanc : anc ≠ some t) :
    del_anchor (some t) ⟨segs, anc⟩ =
      ⟨segs.erase (a, b), some (if t = a then b else a)⟩ := by
  obtain ⟨l₁, l₂, rfl⟩ := List.append_of_mem hmem
  have hB : ((l₁ ++ (a, b) :: l₂).flatMap fun q => [q.1, q.2]) =
      (l₁.flatMap fun q => [q.1, q.2]) ++
        a :: b :: (l₂.flatMap fun q => [q.1, q.2]) := by
    simp
  rw [hB] at hnd
  rw [List.nodup_append] at hnd
  obtain ⟨-, hmid, hdisj⟩ := hnd
  have hab : a ≠ b := by
    intro hc
    exact (List.nodup_cons.mp hmid).1 (hc ▸ List.mem_cons_self b _)
  have haBl : a ∉ l₁.flatMap fun q => [q.1, q.2] := fun hc =>
    hdisj hc (List.mem_cons_self a _)
  have hbBl : b ∉ l₁.flatMap fun q => [q.1, q.2] := fun hc =>
    hdisj hc (List.mem_cons_of_mem a (List.mem_cons_self b _))
  have haBr : a ∉ l₂.flatMap fun q => [q.1, q.2] := fun hc =>
    (List.nodup_cons.mp hmid).1 (List.mem_cons_of_mem b hc)
  have hbBr : b ∉ l₂.flatMap fun q => [q.1, q.2] := fun hc =>
    (List.nodup_cons.mp (List.nodup_cons.mp hmid).2).1 hc
  have hmemB : ∀ q : Seg, ∀ l : List Seg, q ∈ l →
      q.1 ∈ (l.flatMap fun r => [r.1, r.2]) ∧
      q.2 ∈ (l.flatMap fun r => [r.1, r.2]) := by
    intro q l hq
    constructor <;> exact List.mem_flatMap.mpr ⟨q, hq, by simp⟩
  have htb : t = a ∨ t = b := ht
  have hno1 : ∀ q ∈ l₁, ¬ hitsT (some t) q := by
    intro q hq hc
    obtain ⟨h1, h2⟩ := hmemB q l₁ hq
    rcases hc with hc | hc
    · have he : q.1 = t := Option.some.inj hc
      rcases htb with he2 | he2
      · exact haBl ((he.trans he2) ▸ h1)
      · exact hbBl ((he.trans he2) ▸ h1)
    · have he : q.2 = t := Option.some.inj hc
      rcases htb with he2 | he2
      · exact haBl ((he.trans he2) ▸ h2)
      · exact hbBl ((he.trans he2) ▸ h2)
  have hno2 : ∀ q ∈ l₂, ¬ hitsT (some t) q := by
    intro q hq hc
    obtain ⟨h1, h2⟩ := hmemB q l₂ hq
    rcases hc with hc | hc
    · have he : q.1 = t := Option.some.inj hc
      rcases htb with he2 | he2
      · exact haBr ((he.trans he2) ▸ h1)
      · exact hbBr ((he.trans he2) ▸ h1)
    · have he : q.2 = t := Option.some.inj hc
      rcases htb with he2 | he2
      · exact haBr ((he.trans he2) ▸ h2)
      · exact hbBr ((he.trans he2) ▸ h2)
  have hnotmem : (a, b) ∉ l₁ := fun hc => haBl (hmemB (a, b) l₁ hc).1
  -- the loop runs: the target is not the pending anchor
  rw [del_anchor, if_neg fun hc => hanc hc.symm]
  simp only [delIter]
  set L := l₁ ++ (a, b) :: l₂ with hL
  have hlen : L.length = l₁.length + (l₂.length + 1) := by
    simp [hL]
  have hfuel : L.length - 0 = l₁.length + (l₂.length + 1) := by omega
  rw [hfuel, delIterAux_prefix (some t) l₁.length (l₂.length + 1) L 0 anc
    (by omega)
    (by
      intro j hj _ hjk
      have hjl : j < l₁.length := by omega
      have : L.get ⟨j, hj⟩ = l₁.get ⟨j, hjl⟩ := by
        simp only [hL, List.get_eq_getElem]
        exact List.getElem_append_left hjl
      rw [this]
      exact hno1 _ (List.get_mem l₁ _ _))]
  -- the hit step at index `l₁.length`, then the tail of `l₂` has no match
  have hget : L[l₁.length]? = some (a, b) := by
    rw [hL, List.getElem?_append_right (le_refl l₁.length)]
    simp
  have herase : L.erase (a, b) = l₁ ++ l₂ := by
    rw [hL, List.erase_append_right _ hnotmem, List.erase_cons_head]
  have htail : ∀ anc2, delIterAux (some t) l₂.length (l₁ ++ l₂)
      (l₁.length + 1) anc2 = (l₁ ++ l₂, anc2) := by
    intro anc2
    apply delIterAux_no_match
    intro j hj hij
    have hjge : l₁.length ≤ j := by omega
    have hjl : j - l₁.length < l₂.length := by
      have := hj
      simp only [List.length_append] at this
      omega
    have hgetj : (l₁ ++ l₂).get ⟨j, hj⟩ = l₂.get ⟨j - l₁.length, hjl⟩ := by
      simp only [List.get_eq_getElem]
      exact List.getElem_append_right hjge
    rw [hgetj]
    exact hno2 _ (List.get_mem _ _ _)
  have hhit : delIterAux (some t) (l₂.length + 1) L l₁.length anc =
      (l₁ ++ l₂, some (if t = a then b else a)) := by
    simp only [delIterAux, hget]
    rcases ht with rfl | rfl
    · rw [if_pos rfl, herase, htail, if_pos rfl]
    · rw [if_neg fun hc => hab (Option.some.inj hc), if_pos rfl, herase,
        htail, if_neg fun hc => hab hc.symm]
  rw [Nat.zero_add, hhit]
  rw [show (l₁ ++ (a, b) :: l₂).erase (a, b) = L.erase (a, b) from rfl, herase]

/-- C8 witness: the theorem applied to segments `[(10, 20)]` with target
10: the segment is removed and the anchor becomes 20. -/
theorem del_anchor_removes_boundary_witness :
    del_anchor (some 10) ⟨[((10 : ℚ), (20 : ℚ))], none⟩ =
      ⟨[], some 20⟩ := by
  have h := del_anchor_removes_boundary [((10 : ℚ), (20 : ℚ))] none 10 20 10
    (by decide) (by decide) (Or.inl rfl) (by decide)
  simpa using h

/-! ### Sorting lemmas: the final re-sort restores the invariant -/

theorem orderedInsert_pairwise_relLE (m : Seg) (hm : m.1 ≤ m.2) :
    ∀ L : List Seg, L.Pairwise relLE → (∀ p ∈ L, p.1 ≤ p.2) →
      (∀ q ∈ L, acond m q) →
      (L.orderedInsert bystart m).Pairwise relLE := by
  intro L
  induction L with
  | nil =>
    intro _ _ _
    simp [List.orderedInsert]
  | cons q L ih =>
    intro hL hse hc
    obtain ⟨hqL, hL2⟩ := List.pairwise_cons.mp hL
    rw [List.orderedInsert]
    split
    next hle =>
      -- m goes first: it is left of q, hence of everything after q
      have hmq : relLE m q := by
        rcases hc q (List.mem_cons_self q L) with h | ⟨h1, h2⟩
        · exact h
        · exact absurd (lt_of_lt_of_le h2 hle) (lt_irrefl _)
      refine List.pairwise_cons.mpr ⟨?_, hL⟩
      intro r hr
      rcases List.mem_cons.mp hr with rfl | hr2
      · exact hmq
      · exact le_trans hmq (le_trans (hse q (List.mem_cons_self q L))
          (hqL r hr2))
    next hgt =>
      -- q stays first, m is inserted into the tail
      have hq1 : q.1 < m.1 := lt_of_not_le hgt
      refine List.pairwise_cons.mpr ⟨?_, ?_⟩
      · intro r hr
        rcases (List.mem_orderedInsert bystart).mp hr with rfl | hr2
        · rcases hc q (List.mem_cons_self q L) with h | ⟨h1, h2⟩
          · exact absurd (lt_of_lt_of_le hq1 (le_trans hm h)) (lt_irrefl _)
          · exact h1
        · exact hqL r hr2
      · exact ih hL2 (fun p hp => hse p (List.mem_cons_of_mem q hp))
          (fun r hr => hc r (List.mem_cons_of_mem q hr))

theorem mem_sortSegs (M : List Seg) (p : Seg) : p ∈ sortSegs M ↔ p ∈ M :=
  (List.perm_insertionSort bystart M).mem_iff

theorem sortSegs_pairwise_relLE (M : List Seg) (h1 : ∀ p ∈ M, p.1 ≤ p.2)
    (h2 : M.Pairwise acond) : (sortSegs M).Pairwise relLE := by
  induction M with
  | nil => simp [sortSegs, List.insertionSort]
  | cons m M ih =>
    obtain ⟨hmM, hM⟩ := List.pairwise_cons.mp h2
    show (List.orderedInsert bystart m (List.insertionSort bystart M)).Pairwise relLE
    apply orderedInsert_pairwise_relLE m (h1 m (List.mem_cons_self m M))
    · exact ih (fun p hp => h1 p (List.mem_cons_of_mem m hp)) hM
    · intro p hp
      exact h1 p (List.mem_cons_of_mem m ((mem_sortSegs M p).mp hp))
    · intro q hq
      exact hmM q ((mem_sortSegs M q).mp hq)

theorem Inv_sortSegs (M : List Seg) (h1 : ∀ p ∈ M, p.1 ≤ p.2)
    (h2 : M.Pairwise acond) : Inv (sortSegs M) := by
  refine ⟨sortSegs_pairwise_relLE M h1 h2, ?_⟩
  intro p hp
  exact h1 p ((mem_sortSegs M p).mp hp)

theorem relLE_acond (l : List Seg) (h : l.Pairwise relLE) : l.Pairwise acond :=
  h.imp fun hr => Or.inl hr

/-! ### Facts about `lastIdx?` and positional list decompositions -/

theorem lastIdx?_eq_none (p : Seg → Bool) :
    ∀ l, lastIdx? p l = none → ∀ x ∈ l, ¬ p x = true := by
  intro l
  induction l with
  | nil => intro _ x hx; cases hx
  | cons y ys ih =>
    intro h x hx
    cases hys : lastIdx? p ys with
    | some j =>
      simp only [lastIdx?, hys] at h
      exact Option.noConfusion h
    | none =>
      simp only [lastIdx?, hys] at h
      by_cases hpy : p y = true
      · rw [if_pos hpy] at h
        exact Option.noConfusion h
      · rcases List.mem_cons.mp hx with rfl | hx2
        · exact hpy
        · exact ih hys x hx2

theorem lastIdx?_spec (p : Seg → Bool) :
    ∀ l i, lastIdx? p l = some i →
      ∃ h : i < l.length, p (l.get ⟨i, h⟩) = true ∧
        ∀ j (hj : j < l.length), i < j → ¬ p (l.get ⟨j, hj⟩) = true := by
  intro l
  induction l with
  | nil => intro i h; exact Option.noConfusion h
  | cons y ys ih =>
    intro i h
    cases hys : lastIdx? p ys with
    | some j =>
      simp only [lastIdx?, hys] at h
      obtain rfl : j + 1 = i := Option.some.inj h
      obtain ⟨hj, hpj, hlater⟩ := ih j hys
      refine ⟨by simpa using Nat.succ_lt_succ hj, by simpa using hpj, ?_⟩
      intro k hk hik
      cases k with
      | zero => omega
      | succ k2 =>
        have hk2 : k2 < ys.length := by simpa using hk
        have := hlater k2 hk2 (by omega)
        simpa using this
    | none =>
      simp only [lastIdx?, hys] at h
      by_cases hpy : p y = true
      case pos =>
        rw [if_pos hpy] at h
        obtain rfl : (0 : ℕ) = i := Option.some.inj h
        refine ⟨by simp, by simpa using hpy, ?_⟩
        intro j hj hij
        cases j with
        | zero => omega
        | succ j2 =>
          have hj2 : j2 < ys.length := by simpa using hj
          have := lastIdx?_eq_none p ys hys (ys.get ⟨j2, hj2⟩)
            (List.get_mem _ _ _)
          simpa using this
      case neg =>
        rw [if_neg hpy] at h
        exact Option.noConfusion h

theorem getD_at_append :
    ∀ (w : List Seg) (z : Seg) (v : List Seg) (d : Seg),
      (w ++ z :: v).getD w.length d = z := by
  intro w z v d
  induction w with
  | nil => rfl
  | cons a w ih => simpa using ih

theorem eraseIdx_at_append :
    ∀ (w : List Seg) (z : Seg) (v : List Seg),
      (w ++ z :: v).eraseIdx w.length = w ++ v := by
  intro w z v
  induction w with
  | nil => rfl
  | cons a w ih => simpa using ih

theorem decomp_at (l : List Seg) (i : ℕ) (h : i < l.length) :
    l = l.take i ++ l.get ⟨i, h⟩ :: l.drop (i + 1) := by
  conv_lhs => rw [← List.take_append_drop i l]
  congr 1
  rw [List.drop_eq_getElem_cons h]
  simp [List.get_eq_getElem]

theorem length_take_of_lt (l : List Seg) (i : ℕ) (h : i < l.length) :
    (l.take i).length = i := by
  simp [List.length_take]
  omega

theorem mem_drop_no_match (p : Seg → Bool) (l : List Seg) (i : ℕ)
    (hlater : ∀ j (hj : j < l.length), i < j → ¬ p (l.get ⟨j, hj⟩) = true) :
    ∀ q ∈ l.drop (i + 1), ¬ p q = true := by
  intro q hq
  obtain ⟨⟨n, hn⟩, hget⟩ := List.mem_iff_get.mp hq
  have hlen : i + 1 + n < l.length := by
    have := hn
    simp only [List.length_drop] at this
    omega
  have hrw : (l.drop (i + 1)).get ⟨n, hn⟩ = l.get ⟨i + 1 + n, hlen⟩ := by
    simp only [List.get_eq_getElem]
    exact (List.getElem_drop' l hlen).symm
  rw [hrw] at hget
  rw [← hget]
  exact hlater (i + 1 + n) hlen (by omega)

theorem mem_take_relLE (l : List Seg) (i : ℕ) (h : i < l.length)
    (hpw : l.Pairwise relLE) :
    ∀ q ∈ l.take i, relLE q (l.get ⟨i, h⟩) := by
  have hd := decomp_at l i h
  rw [hd] at hpw
  obtain ⟨-, h2, h3⟩ := List.pairwise_append.mp hpw
  intro q hq
  exact h3 q hq _ (List.mem_cons_self _ _)

theorem mem_drop_relLE (l : List Seg) (i : ℕ) (h : i < l.length)
    (hpw : l.Pairwise relLE) :
    ∀ q ∈ l.drop (i + 1), relLE (l.get ⟨i, h⟩) q := by
  have hd := decomp_at l i h
  rw [hd] at hpw
  obtain ⟨-, h2, -⟩ := List.pairwise_append.mp hpw
  intro q hq
  exact (List.pairwise_cons.mp h2).1 q hq

/-! ### Per-branch preservation of the invariant by `put_anchor` -/

theorem inside_iff (x : ℚ) (q : Seg) :
    inside x q = true ↔ q.1 ≤ x ∧ x ≤ q.2 := by
  simp [inside]

theorem mem_remove_between (aa bb : ℚ) (l : List Seg) (q : Seg) :
    q ∈ remove_between aa bb l ↔ q ∈ l ∧ ¬(aa ≤ q.1 ∧ q.2 ≤ bb) := by
  constructor
  · intro h
    obtain ⟨hql, hp⟩ := List.mem_filter.mp h
    refine ⟨hql, fun hc => ?_⟩
    simp [hc] at hp
  · intro h
    obtain ⟨hql, hnc⟩ := h
    exact List.mem_filter.mpr ⟨hql, by simp [hnc]⟩

theorem kept_inv_append (kept : List Seg) (s : Seg)
    (hk : kept.Pairwise relLE) (hkse : ∀ q ∈ kept, q.1 ≤ q.2)
    (hs : s.1 ≤ s.2) (hcross : ∀ q ∈ kept, acond q s) :
    Inv (sortSegs (kept ++ [s])) := by
  apply Inv_sortSegs
  · intro p hp
    rcases List.mem_append.mp hp with hp2 | hp2
    · exact hkse p hp2
    · rw [List.mem_singleton.mp hp2]
      exact hs
  · refine List.pairwise_append.mpr ⟨relLE_acond _ hk, by simp, ?_⟩
    intro q hq s2 hs2
    rw [List.mem_singleton.mp hs2]
    exact hcross q hq

theorem kept_inv_append2 (kept : List Seg) (p1 p2 : Seg)
    (hk : kept.Pairwise relLE) (hkse : ∀ q ∈ kept, q.1 ≤ q.2)
    (h1se : p1.1 ≤ p1.2) (h2se : p2.1 ≤ p2.2) (h12 : acond p1 p2)
    (hc1 : ∀ q ∈ kept, acond q p1) (hc2 : ∀ q ∈ kept, acond q p2) :
    Inv (sortSegs (kept ++ [p1, p2])) := by
  apply Inv_sortSegs
  · intro p hp
    rcases List.mem_append.mp hp with hp2 | hp2
    · exact hkse p hp2
    · rcases List.mem_cons.mp hp2 with rfl | hp3
      · exact h1se
      · rw [List.mem_singleton.mp hp3]
        exact h2se
  · refine List.pairwise_append.mpr ⟨relLE_acond _ hk, by simp [h12], ?_⟩
    intro q hq s2 hs2
    rcases List.mem_cons.mp hs2 with rfl | hs3
    · exact hc1 q hq
    · rw [List.mem_singleton.mp hs3]
      exact hc2 q hq

theorem case1_side (q : Seg) (aa bb : ℚ) (hse : q.1 ≤ q.2)
    (h1 : ¬(q.1 ≤ aa ∧ aa ≤ q.2)) (h2 : ¬(q.1 ≤ bb ∧ bb ≤ q.2))
    (h3 : ¬(aa ≤ q.1 ∧ q.2 ≤ bb)) (hab : aa ≤ bb) : acond q (aa, bb) := by
  unfold acond
  by_cases hc : q.2 ≤ aa
  · exact Or.inl hc
  · right
    push_neg at h1 h2 h3 hc
    have haq : aa < q.1 := by
      by_contra hc2
      exact absurd (h1 (le_of_not_lt hc2)) (not_lt.mpr (le_of_lt hc))
    have hbq : bb < q.1 := by
      by_contra hc2
      have hq2bb : q.2 < bb := h2 (le_of_not_lt hc2)
      exact absurd (h3 (le_of_lt haq)) (not_lt.mpr (le_of_lt hq2bb))
    exact ⟨le_of_lt hbq, haq⟩

theorem case1_inv (segs : List Seg) (aa bb : ℚ)
    (hInv : Inv segs) (hab : aa ≤ bb)
    (haai : lastIdx? (inside aa) segs = none)
    (hbbi : lastIdx? (inside bb) segs = none) :
    Inv (sortSegs (remove_between aa bb segs ++ [(aa, bb)])) := by
  have hnaa : ∀ q ∈ segs, ¬(q.1 ≤ aa ∧ aa ≤ q.2) := fun q hq hc =>
    lastIdx?_eq_none _ _ haai q hq ((inside_iff aa q).mpr hc)
  have hnbb : ∀ q ∈ segs, ¬(q.1 ≤ bb ∧ bb ≤ q.2) := fun q hq hc =>
    lastIdx?_eq_none _ _ hbbi q hq ((inside_iff bb q).mpr hc)
  apply kept_inv_append
  · exact hInv.1.filter _
  · intro q hq
    exact hInv.2 q ((mem_remove_between aa bb segs q).mp hq).1
  · exact hab
  · intro q hq
    obtain ⟨hqs, hnc⟩ := (mem_remove_between aa bb segs q).mp hq
    exact case1_side q aa bb (hInv.2 q hqs) (hnaa q hqs) (hnbb q hqs) hnc hab

theorem eraseIdx_parts (segs : List Seg) (i : ℕ) (hi : i < segs.length) :
    segs.eraseIdx i = segs.take i ++ segs.drop (i + 1) :=
  List.eraseIdx_eq_take_drop_succ segs i

theorem getD_eq_get_of_lt (segs : List Seg) (i : ℕ) (hi : i < segs.length)
    (d : Seg) : segs.getD i d = segs.get ⟨i, hi⟩ := by
  rw [List.getD_eq_getElem segs d hi]
  simp [List.get_eq_getElem]

/-- Move 3, `aai > -1` side: the widened segment is `(x.1, bb)` where `x`
is the popped segment; everything kept is compatible with it. -/
theorem case3a_inv (segs : List Seg) (aa bb : ℚ) (i : ℕ)
    (hInv : Inv segs) (hab : aa ≤ bb)
    (haai : lastIdx? (inside aa) segs = some i)
    (hbbi : lastIdx? (inside bb) segs = none) :
    Inv (sortSegs
      (remove_between (segs.getD i ((0 : ℚ), (0 : ℚ))).1 bb
          (segs.eraseIdx i) ++
        [((segs.getD i ((0 : ℚ), (0 : ℚ))).1, bb)])) := by
  obtain ⟨hi, hpx, -⟩ := lastIdx?_spec _ _ _ haai
  set x := segs.get ⟨i, hi⟩ with hx
  have hgd : segs.getD i ((0 : ℚ), (0 : ℚ)) = x := getD_eq_get_of_lt segs i hi _
  have hxin : x.1 ≤ aa ∧ aa ≤ x.2 := (inside_iff aa x).mp hpx
  have hnbb : ∀ q ∈ segs, ¬(q.1 ≤ bb ∧ bb ≤ q.2) := fun q hq hc =>
    lastIdx?_eq_none _ _ hbbi q hq ((inside_iff bb q).mpr hc)
  have hu : ∀ q ∈ segs.take i, q.2 ≤ x.1 := mem_take_relLE segs i hi hInv.1
  have hv : ∀ q ∈ segs.drop (i + 1), x.2 ≤ q.1 := mem_drop_relLE segs i hi hInv.1
  have hrest : segs.eraseIdx i = segs.take i ++ segs.drop (i + 1) :=
    eraseIdx_parts segs i hi
  have hrestpw : (segs.eraseIdx i).Pairwise relLE :=
    hInv.1.sublist (List.eraseIdx_sublist segs i)
  have hrestmem : ∀ q ∈ segs.eraseIdx i, q ∈ segs := fun q hq =>
    (List.eraseIdx_sublist segs i).subset hq
  rw [hgd]
  apply kept_inv_append
  · exact hrestpw.filter _
  · intro q hq
    exact hInv.2 q (hrestmem q ((mem_remove_between _ _ _ q).mp hq).1)
  · exact le_trans hxin.1 hab
  · intro q hq
    obtain ⟨hqr, hnc⟩ := (mem_remove_between _ _ _ q).mp hq
    have hquv : q ∈ segs.take i ∨ q ∈ segs.drop (i + 1) := by
      rw [hrest] at hqr
      exact List.mem_append.mp hqr
    rcases hquv with hq2 | hq2
    · exact Or.inl (hu q hq2)
    · -- q is right of x; it is not contained, so it is strictly right of bb
      have hxq : x.2 ≤ q.1 := hv q hq2
      have hq1x : x.1 ≤ q.1 := le_trans (le_trans hxin.1 hxin.2) hxq
      have hqbb : ¬(q.1 ≤ bb ∧ bb ≤ q.2) :=
        hnbb q (hrestmem q (hrest ▸ List.mem_append.mpr (Or.inr hq2)))
      have hq2bb : bb < q.2 := by
        by_contra hc
        exact hnc ⟨hq1x, le_of_not_lt hc⟩
      have hbbq1 : bb < q.1 := by
        by_contra hc
        exact hqbb ⟨le_of_not_lt hc, le_of_lt hq2bb⟩
      exact Or.inr ⟨le_of_lt hbbq1, lt_of_le_of_lt (le_trans hxin.1 hab) hbbq1⟩

/-- Move 3, `bbi > -1` side: the widened segment is `(aa, y.2)` where `y`
is the popped segment. -/
theorem case3b_inv (segs : List Seg) (aa bb : ℚ) (j : ℕ)
    (hInv : Inv segs) (hab : aa ≤ bb)
    (haai : lastIdx? (inside aa) segs = none)
    (hbbi : lastIdx? (inside bb) segs = some j) :
    Inv (sortSegs
      (remove_between aa (segs.getD j ((0 : ℚ), (0 : ℚ))).2
          (segs.eraseIdx j) ++
        [(aa, (segs.getD j ((0 : ℚ), (0 : ℚ))).2)])) := by
  obtain ⟨hj, hpy, -⟩ := lastIdx?_spec _ _ _ hbbi
  set y := segs.get ⟨j, hj⟩ with hy
  have hgd : segs.getD j ((0 : ℚ), (0 : ℚ)) = y := getD_eq_get_of_lt segs j hj _
  have hyin : y.1 ≤ bb ∧ bb ≤ y.2 := (inside_iff bb y).mp hpy
  have hnaa : ∀ q ∈ segs, ¬(q.1 ≤ aa ∧ aa ≤ q.2) := fun q hq hc =>
    lastIdx?_eq_none _ _ haai q hq ((inside_iff aa q).mpr hc)
  have hu : ∀ q ∈ segs.take j, q.2 ≤ y.1 := mem_take_relLE segs j hj hInv.1
  have hv : ∀ q ∈ segs.drop (j + 1), y.2 ≤ q.1 := mem_drop_relLE segs j hj hInv.1
  have hrest : segs.eraseIdx j = segs.take j ++ segs.drop (j + 1) :=
    eraseIdx_parts segs j hj
  have hrestpw : (segs.eraseIdx j).Pairwise relLE :=
    hInv.1.sublist (List.eraseIdx_sublist segs j)
  have hrestmem : ∀ q ∈ segs.eraseIdx j, q ∈ segs := fun q hq =>
    (List.eraseIdx_sublist segs j).subset hq
  have haay1 : aa < y.1 := by
    by_contra hc
    exact hnaa y (List.get_mem _ _ _)
      ⟨le_of_not_lt hc, le_trans hab hyin.2⟩
  rw [hgd]
  apply kept_inv_append
  · exact hrestpw.filter _
  · intro q hq
    exact hInv.2 q (hrestmem q ((mem_remove_between _ _ _ q).mp hq).1)
  · exact le_of_lt (lt_of_lt_of_le haay1 (le_trans hyin.1 hyin.2))
  · intro q hq
    obtain ⟨hqr, hnc⟩ := (mem_remove_between _ _ _ q).mp hq
    have hquv : q ∈ segs.take j ∨ q ∈ segs.drop (j + 1) := by
      rw [hrest] at hqr
      exact List.mem_append.mp hqr
    have hqsegs : q ∈ segs :=
      hrestmem q (hrest ▸ List.mem_append.mpr hquv)
    rcases hquv with hq2 | hq2
    · -- q is left of y; not containing aa and not contained forces q.2 < aa
      have hqy : q.2 ≤ y.1 := hu q hq2
      have hqaa : ¬(q.1 ≤ aa ∧ aa ≤ q.2) := hnaa q hqsegs
      have hq2aa : q.2 < aa := by
        by_contra hc
        have hq1aa : ¬ q.1 ≤ aa := fun hc2 => hqaa ⟨hc2, le_of_not_lt hc⟩
        exact hnc ⟨le_of_lt (lt_of_not_le hq1aa),
          le_trans hqy (le_trans hyin.1 hyin.2)⟩
      exact Or.inl (le_of_lt hq2aa)
    · -- q is right of y
      have hyq : y.2 ≤ q.1 := hv q hq2
      exact Or.inr ⟨hyq,
        lt_of_lt_of_le haay1 (le_trans (le_trans hyin.1 hyin.2) hyq)⟩

/-- Move 2: both endpoints inside the same (popped) segment; the segment
is split into the pieces chosen by the `a == aa` / `b == bb` tests. -/
theorem case2_inv (segs : List Seg) (aa bb : ℚ) (i : ℕ)
    (hInv : Inv segs) (hab : aa ≤ bb)
    (haai : lastIdx? (inside aa) segs = some i)
    (hbbi : lastIdx? (inside bb) segs = some i) :
    Inv (sortSegs (segs.eraseIdx i ++
      (if (segs.getD i ((0 : ℚ), (0 : ℚ))).1 = aa then
        [(bb, (segs.getD i ((0 : ℚ), (0 : ℚ))).2)]
      else if (segs.getD i ((0 : ℚ), (0 : ℚ))).2 = bb then
        [((segs.getD i ((0 : ℚ), (0 : ℚ))).1, aa)]
      else
        [((segs.getD i ((0 : ℚ), (0 : ℚ))).1, aa),
          (bb, (segs.getD i ((0 : ℚ), (0 : ℚ))).2)]))) := by
  obtain ⟨hi, hpx, -⟩ := lastIdx?_spec _ _ _ haai
  obtain ⟨hi2, hpy, hlater⟩ := lastIdx?_spec _ _ _ hbbi
  set x := segs.get ⟨i, hi⟩ with hx
  have hgd : segs.getD i ((0 : ℚ), (0 : ℚ)) = x := getD_eq_get_of_lt segs i hi _
  have hxa : x.1 ≤ aa ∧ aa ≤ x.2 := (inside_iff aa x).mp hpx
  have hxb : x.1 ≤ bb ∧ bb ≤ x.2 := (inside_iff bb x).mp hpy
  have hu : ∀ q ∈ segs.take i, q.2 ≤ x.1 := mem_take_relLE segs i hi hInv.1
  have hv : ∀ q ∈ segs.drop (i + 1), x.2 ≤ q.1 := mem_drop_relLE segs i hi hInv.1
  have hvnb : ∀ q ∈ segs.drop (i + 1), ¬(q.1 ≤ bb ∧ bb ≤ q.2) := by
    intro q hq hc
    have := mem_drop_no_match (inside bb) segs i
      (by
        intro j2 hj2 hij2
        have : segs.get ⟨j2, hj2⟩ = segs.get ⟨j2, hj2⟩ := rfl
        exact hlater j2 hj2 hij2) q hq
    exact this ((inside_iff bb q).mpr hc)
  have hvbb : ∀ q ∈ segs.drop (i + 1), bb < q.1 := by
    intro q hq
    by_contra hc
    exact hvnb q hq ⟨le_of_not_lt hc,
      le_trans (le_trans hxb.2 (hv q hq)) (hInv.2 q
        (List.drop_subset _ _ hq))⟩
  have hrest : segs.eraseIdx i = segs.take i ++ segs.drop (i + 1) :=
    eraseIdx_parts segs i hi
  have hrestpw : (segs.eraseIdx i).Pairwise relLE :=
    hInv.1.sublist (List.eraseIdx_sublist segs i)
  have hrestmem : ∀ q ∈ segs.eraseIdx i, q ∈ segs := fun q hq =>
    (List.eraseIdx_sublist segs i).subset hq
  have hrestse : ∀ q ∈ segs.eraseIdx i, q.1 ≤ q.2 := fun q hq =>
    hInv.2 q (hrestmem q hq)
  have hquv : ∀ q ∈ segs.eraseIdx i,
      q ∈ segs.take i ∨ q ∈ segs.drop (i + 1) := by
    intro q hq
    rw [hrest] at hq
    exact List.mem_append.mp hq
  -- compatibility of the kept segments with each possible piece
  have hcBB : ∀ q ∈ segs.eraseIdx i, acond q (bb, x.2) := by
    intro q hq
    rcases hquv q hq with hq2 | hq2
    · exact Or.inl (le_trans (hu q hq2) (le_trans hxa.1 hab))
    · exact Or.inr ⟨hv q hq2, hvbb q hq2⟩
  have hcXA : x.1 ≠ aa → ∀ q ∈ segs.eraseIdx i, acond q (x.1, aa) := by
    intro hne q hq
    rcases hquv q hq with hq2 | hq2
    · exact Or.inl (hu q hq2)
    · refine Or.inr ⟨le_trans hxa.2 (hv q hq2), ?_⟩
      have hx1aa : x.1 < aa := lt_of_le_of_ne hxa.1 hne
      exact lt_of_lt_of_le hx1aa (le_trans hxa.2 (hv q hq2))
  rw [hgd]
  by_cases hba : x.1 = aa
  · rw [if_pos hba]
    exact kept_inv_append _ _ hrestpw hrestse hxb.2 hcBB
  · rw [if_neg hba]
    by_cases hbb : x.2 = bb
    · rw [if_pos hbb]
      exact kept_inv_append _ _ hrestpw hrestse hxa.1 (hcXA hba)
    · rw [if_neg hbb]
      exact kept_inv_append2 _ _ _ hrestpw hrestse hxa.1 hxb.2
        (Or.inl hab) (hcXA hba) hcBB

/-- Move 4: the two endpoints lie inside two different segments and the
join flag is on; the joined segment runs from the first segment's start to
the second one's end. -/
theorem case4_inv (segs : List Seg) (aa bb : ℚ) (i j : ℕ)
    (hInv : Inv segs) (hab : aa ≤ bb) (hij : i ≠ j)
    (haai : lastIdx? (inside aa) segs = some i)
    (hbbi : lastIdx? (inside bb) segs = some j) :
    Inv (sortSegs
      (remove_between aa bb ((segs.eraseIdx i).eraseIdx (j - 1)) ++
        [((segs.getD i ((0 : ℚ), (0 : ℚ))).1,
          ((segs.eraseIdx i).getD (j - 1) ((0 : ℚ), (0 : ℚ))).2)])) := by
  obtain ⟨hi, hpx, -⟩ := lastIdx?_spec _ _ _ haai
  obtain ⟨hj, hpy, -⟩ := lastIdx?_spec _ _ _ hbbi
  set x := segs.get ⟨i, hi⟩ with hx
  set y := segs.get ⟨j, hj⟩ with hy
  have hxa : x.1 ≤ aa ∧ aa ≤ x.2 := (inside_iff aa x).mp hpx
  have hyb : y.1 ≤ bb ∧ bb ≤ y.2 := (inside_iff bb y).mp hpy
  have haneb : aa ≠ bb := by
    intro hc
    rw [hc, hbbi] at haai
    exact hij (Option.some.inj haai).symm
  have hanb : aa < bb := lt_of_le_of_ne hab haneb
  have hilt : i < j := by
    rcases Nat.lt_trichotomy i j with h | h | h
    · exact h
    · exact absurd h hij
    · exfalso
      have hrel : relLE (segs.get ⟨j, hj⟩) (segs.get ⟨i, hi⟩) :=
        List.pairwise_iff_get.mp hInv.1 ⟨j, hj⟩ ⟨i, hi⟩ h
      rw [← hy, ← hx] at hrel
      exact absurd (lt_of_le_of_lt
        (le_trans hyb.2 (le_trans hrel hxa.1)) hanb) (lt_irrefl bb)
  -- positional decomposition of `segs` around `x` and `y`
  set A := segs.take i with hA
  set B := (segs.drop (i + 1)).take (j - i - 1) with hB
  set C := segs.drop (j + 1) with hC
  have hAlen : A.length = i := length_take_of_lt segs i hi
  have hdropsplit : segs.drop (i + 1) = B ++ y :: C := by
    conv_lhs => rw [← List.take_append_drop (j - i - 1) (segs.drop (i + 1))]
    congr 1
    rw [List.drop_drop]
    have hidx : i + 1 + (j - i - 1) = j := by omega
    rw [hidx, hy]
    simp only [List.get_eq_getElem]
    exact List.drop_eq_getElem_cons hj
  have hsegs : segs = A ++ x :: (B ++ y :: C) := by
    rw [← hdropsplit]
    exact decomp_at segs i hi
  have hBlen : B.length = j - i - 1 := by
    rw [hB]
    have : (segs.drop (i + 1)).length = segs.length - (i + 1) := by
      simp [List.length_drop]
    simp [List.length_take, this]
    omega
  have hABlen : (A ++ B).length = j - 1 := by
    simp [List.length_append, hAlen, hBlen]
    omega
  have hgdx : segs.getD i ((0 : ℚ), (0 : ℚ)) = x := getD_eq_get_of_lt segs i hi _
  have hrest1 : segs.eraseIdx i = A ++ (B ++ y :: C) := by
    conv_lhs => rw [hsegs, ← hAlen]
    exact eraseIdx_at_append A x (B ++ y :: C)
  have hrest1b : segs.eraseIdx i = (A ++ B) ++ y :: C := by
    rw [hrest1]
    simp [List.append_assoc]
  have hgdy : (segs.eraseIdx i).getD (j - 1) ((0 : ℚ), (0 : ℚ)) = y := by
    rw [hrest1b, ← hABlen]
    exact getD_at_append (A ++ B) y C _
  have hrest2 : (segs.eraseIdx i).eraseIdx (j - 1) = (A ++ B) ++ C := by
    rw [hrest1b, ← hABlen]
    exact eraseIdx_at_append (A ++ B) y C
  -- relations between kept segments and the join
  have hqA : ∀ q ∈ A, q.2 ≤ x.1 := mem_take_relLE segs i hi hInv.1
  have hqB1 : ∀ q ∈ B, x.2 ≤ q.1 := fun q hq =>
    mem_drop_relLE segs i hi hInv.1 q (List.take_subset _ _ hq)
  have htakej : segs.take j = A ++ x :: B := by
    have hlen : (A ++ x :: B).length = j := by
      simp [List.length_append, hAlen, hBlen]
      omega
    have : segs = (A ++ x :: B) ++ y :: C := by
      rw [hsegs]
      simp [List.append_assoc]
    rw [this, ← hlen]
    exact List.take_left (A ++ x :: B) (y :: C)
  have hqB2 : ∀ q ∈ B, q.2 ≤ y.1 := by
    intro q hq
    apply mem_take_relLE segs j hj hInv.1
    rw [htakej]
    exact List.mem_append.mpr (Or.inr (List.mem_cons_of_mem x hq))
  have hqC : ∀ q ∈ C, y.2 ≤ q.1 := mem_drop_relLE segs j hj hInv.1
  have hrest2pw : ((segs.eraseIdx i).eraseIdx (j - 1)).Pairwise relLE :=
    (hInv.1.sublist (List.eraseIdx_sublist segs i)).sublist
      (List.eraseIdx_sublist _ (j - 1))
  have hrest2mem : ∀ q ∈ (segs.eraseIdx i).eraseIdx (j - 1), q ∈ segs :=
    fun q hq => (List.eraseIdx_sublist segs i).subset
      ((List.eraseIdx_sublist _ (j - 1)).subset hq)
  rw [hgdx, hgdy]
  apply kept_inv_append
  · exact hrest2pw.filter _
  · intro q hq
    exact hInv.2 q (hrest2mem q ((mem_remove_between _ _ _ q).mp hq).1)
  · exact le_trans hxa.1 (le_trans hab hyb.2)
  · intro q hq
    obtain ⟨hqr, hnc⟩ := (mem_remove_between _ _ _ q).mp hq
    rw [hrest2] at hqr
    rcases List.mem_append.mp hqr with hq2 | hq2
    · rcases List.mem_append.mp hq2 with hq3 | hq3
      · exact Or.inl (hqA q hq3)
      · -- a segment strictly between x and y is contained in [aa, bb]
        exact absurd ⟨le_trans hxa.2 (hqB1 q hq3),
          le_trans (hqB2 q hq3) hyb.1⟩ hnc
    · exact Or.inr ⟨hqC q hq2,
        lt_of_le_of_lt hxa.1
          (lt_of_lt_of_le hanb (le_trans hyb.2 (hqC q hq2)))⟩

/-! ### The invariant is preserved by every editor operation -/

theorem put_anchor_inv (pos : ℚ) (flag : Bool) (st : TL)
    (h : Inv st.segments) : Inv (put_anchor pos flag st).1.segments := by
  cases hanc : st.anchor with
  | none =>
    simp only [put_anchor, hanc]
    exact Inv_sortSegs _ h.2 (relLE_acond _ h.1)
  | some anc =>
    have hab : min anc pos ≤ max anc pos := min_le_max
    cases haai : lastIdx? (inside (min anc pos)) st.segments with
    | none =>
      cases hbbi : lastIdx? (inside (max anc pos)) st.segments with
      | none =>
        simp only [put_anchor, hanc, haai, hbbi]
        exact case1_inv _ _ _ h hab haai hbbi
      | some j =>
        simp only [put_anchor, hanc, haai, hbbi]
        exact case3b_inv _ _ _ j h hab haai hbbi
    | some i =>
      cases hbbi : lastIdx? (inside (max anc pos)) st.segments with
      | none =>
        simp only [put_anchor, hanc, haai, hbbi]
        exact case3a_inv _ _ _ i h hab haai hbbi
      | some j =>
        by_cases hij : i = j
        · subst hij
          simp only [put_anchor, hanc, haai, hbbi, if_pos rfl]
          exact case2_inv _ _ _ i h hab haai hbbi
        · cases flag with
          | true =>
            simp only [put_anchor, hanc, haai, hbbi, if_neg hij, if_pos rfl]
            exact case4_inv _ _ _ i j h hab hij haai hbbi
          | false =>
            simp only [put_anchor, hanc, haai, hbbi, if_neg hij]
            exact Inv_sortSegs _ h.2 (relLE_acond _ h.1)

theorem delIterAux_sublist (t : Option ℚ) :
    ∀ (fuel : ℕ) (l : List Seg) (i : ℕ) (anc : Option ℚ),
      (delIterAux t fuel l i anc).1.Sublist l := by
  intro fuel
  induction fuel with
  | zero => intro l i anc; exact List.Sublist.refl l
  | succ fuel ih =>
    intro l i anc
    simp only [delIterAux]
    cases hq : l[i]? with
    | none =>
      exact List.Sublist.refl l
    | some q =>
      show ((if some q.1 = t then delIterAux t fuel (l.erase q) (i + 1)
          (some q.2)
        else if some q.2 = t then delIterAux t fuel (l.erase q) (i + 1)
          (some q.1)
        else delIterAux t fuel l (i + 1) anc)).1.Sublist l
      split
      · exact (ih _ _ _).trans (List.erase_sublist q l)
      · split
        · exact (ih _ _ _).trans (List.erase_sublist q l)
        · exact ih _ _ _

theorem del_anchor_inv (target : Option ℚ) (st : TL)
    (h : Inv st.segments) : Inv (del_anchor target st).segments := by
  unfold del_anchor
  split
  · exact h
  · show Inv (delIter target st.segments 0 st.anchor).1
    unfold delIter
    exact ⟨h.1.sublist (delIterAux_sublist target _ _ _ _),
      fun p hp => h.2 p ((delIterAux_sublist target _ _ _ _).subset hp)⟩

theorem step_inv (st : TL) (op : Op) (h : Inv st.segments) :
    Inv (step st op).segments := by
  cases op with
  | put pos flag => exact put_anchor_inv pos flag st h
  | del target => exact del_anchor_inv target st h

theorem run_inv (ops : List Op) : Inv (run ops).segments := by
  have hgen : ∀ (l : List Op) (st : TL), Inv st.segments →
      Inv (l.foldl step st).segments := by
    intro l
    induction l with
    | nil => intro st h; exact h
    | cons op rest ih =>
      intro st h
      exact ih _ (step_inv st op h)
  exact hgen ops ⟨[], none⟩ ⟨List.Pairwise.nil, fun p hp => absurd hp
    (List.not_mem_nil p)⟩

/-- C1: after any finite sequence of `put_anchor`/`del_anchor` calls
starting from the empty timeline, with arbitrary positions, join flags and
targets, the segment list is pairwise non-overlapping in list order
(consequently also sorted ascending by segment start; abutting segments
are allowed). -/
theorem run_segments_sorted_nonoverlapping (ops : List Op) :
    ((run ops).segments.Pairwise fun p q => p.2 ≤ q.1) ∧
    ((run ops).segments.Pairwise fun p q => p.1 ≤ q.1) := by
  obtain ⟨hpw, hse⟩ := run_inv ops
  refine ⟨hpw, ?_⟩
  apply List.Pairwise.imp_of_mem ?_ hpw
  intro p q hp hq hr
  exact le_trans (hse p hp) hr

/-- C6 (amended): every segment reachable from the empty timeline through
`put_anchor`/`del_anchor` satisfies `start ≤ end`; `start < end` fails
because `put_anchor` twice at the same clean position inserts the
zero-length segment `(pos, pos)`. -/
theorem run_segments_start_le_end (ops : List Op) (p : Seg)
    (hp : p ∈ (run ops).segments) : p.1 ≤ p.2 :=
  (run_inv ops).2 p hp

/-- C6 witness: the amended theorem applied to the two-call sequence that
creates the segment `(10, 20)`. -/
theorem run_segments_start_le_end_witness : (10 : ℚ) ≤ 20 :=
  run_segments_start_le_end [Op.put 10 true, Op.put 20 true] (10, 20)
    (by decide)

/-! ### Round-trip of `apply_state` on strictly separated timelines -/

theorem lastIdx?_eq_none_of (p : Seg → Bool) :
    ∀ l, (∀ x ∈ l, ¬ p x = true) → lastIdx? p l = none := by
  intro l
  induction l with
  | nil => intro _; rfl
  | cons y ys ih =>
    intro h
    have hys : lastIdx? p ys = none :=
      ih fun x hx => h x (List.mem_cons_of_mem y hx)
    simp only [lastIdx?, hys]
    rw [if_neg (h y (List.mem_cons_self y ys))]

theorem sortSegs_eq_self (l : List Seg) (h : l.Pairwise bystart) :
    sortSegs l = l :=
  List.Sorted.insertionSort_eq h

theorem pairwise_bystart_of_inv (l : List Seg) (hpw : l.Pairwise relLE)
    (hse : ∀ p ∈ l, p.1 ≤ p.2) : l.Pairwise bystart := by
  apply List.Pairwise.imp_of_mem ?_ hpw
  intro p q hp hq hr
  exact le_trans (hse p hp) hr

theorem replay_step (done : List Seg) (a b : ℚ)
    (hdonepw : done.Pairwise relLE)
    (hdonese : ∀ q ∈ done, q.1 ≤ q.2)
    (hab : a < b)
    (hleft : ∀ q ∈ done, q.2 < a) :
    (put_anchor b false (put_anchor a true ⟨done, none⟩).1).1 =
      ⟨done ++ [(a, b)], none⟩ := by
  have hsorted : done.Pairwise bystart :=
    pairwise_bystart_of_inv done hdonepw hdonese
  have hsort1 : sortSegs done = done := sortSegs_eq_self done hsorted
  have h1 : (put_anchor a true ⟨done, none⟩).1 = ⟨done, some a⟩ := by
    simp only [put_anchor]
    rw [hsort1]
  rw [h1]
  have hmin : min a b = a := min_eq_left (le_of_lt hab)
  have hmax : max a b = b := max_eq_right (le_of_lt hab)
  have haai : lastIdx? (inside (min a b)) done = none := by
    apply lastIdx?_eq_none_of
    intro q hq hc
    obtain ⟨h2, h3⟩ := (inside_iff _ q).mp hc
    rw [hmin] at h3
    exact absurd h3 (not_le.mpr (hleft q hq))
  have hbbi : lastIdx? (inside (max a b)) done = none := by
    apply lastIdx?_eq_none_of
    intro q hq hc
    obtain ⟨h2, h3⟩ := (inside_iff _ q).mp hc
    rw [hmax] at h3
    exact absurd h3 (not_le.mpr (lt_trans (hleft q hq) hab))
  have hremove : remove_between a b done = done := by
    apply List.filter_eq_self.mpr
    intro q hq
    simp only [Bool.not_eq_eq_eq_not, Bool.not_true, decide_eq_false_iff_not]
    intro hc
    exact absurd (lt_of_le_of_lt (le_trans hc.1 (hdonese q hq)) (hleft q hq))
      (lt_irrefl _)
  have hsort2 : sortSegs (done ++ [(a, b)]) = done ++ [(a, b)] := by
    apply sortSegs_eq_self
    refine List.pairwise_append.mpr ⟨hsorted, by simp, ?_⟩
    intro q hq s hs
    rw [List.mem_singleton.mp hs]
    exact le_of_lt (lt_of_le_of_lt (hdonese q hq) (hleft q hq))
  simp only [put_anchor, haai, hbbi]
  rw [hmin, hmax, hremove, hsort2]

theorem replay_all :
    ∀ (segs done : List Seg),
      ((done ++ segs).Pairwise fun p q : Seg => p.2 < q.1) →
      (∀ p ∈ done ++ segs, p.1 < p.2) →
      segs.foldl
        (fun st q => (put_anchor q.2 false (put_anchor q.1 true st).1).1)
        ⟨done, none⟩ = ⟨done ++ segs, none⟩ := by
  intro segs
  induction segs with
  | nil =>
    intro done _ _
    simp
  | cons x rest ih =>
    intro done hpw hse
    obtain ⟨hd, hxrest, hcross⟩ := List.pairwise_append.mp hpw
    obtain ⟨hxr, hrest⟩ := List.pairwise_cons.mp hxrest
    rw [List.foldl_cons]
    have hstep : (put_anchor x.2 false (put_anchor x.1 true
        ⟨done, none⟩).1).1 = ⟨done ++ [x], none⟩ := by
      have := replay_step done x.1 x.2
        (hd.imp fun hr => le_of_lt hr)
        (fun q hq => le_of_lt (hse q (List.mem_append.mpr (Or.inl hq))))
        (hse x (List.mem_append.mpr (Or.inr (List.mem_cons_self x rest))))
        (fun q hq => hcross q hq x (List.mem_cons_self x rest))
      exact this
    rw [hstep]
    have hlist : (done ++ [x]) ++ rest = done ++ x :: rest := by simp
    have := ih (done ++ [x]) (by rw [hlist]; exact hpw)
      (by rw [hlist]; exact hse)
    rw [this, hlist]

/-- C3 (amended): replaying a well-formed timeline through `apply_state`
reconstructs the same segment list and anchor provided its segments are
strictly separated (each segment ends strictly before the next one
starts).  For timelines with abutting segments the replay merges the
touching segments (see the counterexample), so the hypothesis of a
strictly positive gap is necessary. -/
theorem apply_state_roundtrip (segs : List Seg) (anc : Option ℚ)
    (hsep : segs.Pairwise fun p q : Seg => p.2 < q.1)
    (hse : ∀ p ∈ segs, p.1 < p.2) :
    apply_state segs anc = ⟨segs, anc⟩ := by
  unfold apply_state
  rw [replay_all segs [] (by simpa using hsep) (by simpa using hse)]
  simp

/-- C3 witness: the amended theorem applied to the strictly separated
timeline `[(10,20), (50,60)]` with anchor 30. -/
theorem apply_state_roundtrip_witness :
    apply_state [(10, 20), (50, 60)] (some 30) =
      ⟨[(10, 20), (50, 60)], some 30⟩ :=
  apply_state_roundtrip [(10, 20), (50, 60)] (some 30) (by decide) (by decide)

end FFCutter
